import Mathlib

/-!
# Verification of the `JSONCheck` structural validator

A shallow embedding of the recursive JSON-like validator `JSONCheck`
(src/json-validator.js) together with its type classifier `getType`
(the helpers file).  JavaScript runtime values are modelled by the
inductive type `JVal`; numbers are modelled by `Int` (none of the
validator's observable behaviour in the verified properties depends on
non-integer or NaN arithmetic).  A thrown JavaScript `TypeError` is
modelled by the `Except.error` constructor, so the validator is
embedded as `JSONCheckE : JVal → JVal → Except String Bool`.
-/

/-- A JavaScript runtime value, as far as the validator can observe it.

* `num` carries an `Int` (JS doubles restricted to integers; NaN and
  fractional values are not needed for the verified properties).
* `regexp src` is a flag-free regular-expression object with source
  `src`, whose JS `toString()` is `"/" ++ src ++ "/"`.  It is needed
  because the validator uses the literal `/each/` as a sentinel.
* `arr` is a dense JS array; `obj` is a plain object given by its own
  enumerable properties in insertion order (keys are unique in any
  value produced by a real JS program).
* Functions, symbols and exotic built-ins (Date, …) are omitted: they
  cannot appear in JSON-like data and no verified claim mentions them. -/
inductive JVal where
  | str (s : String)
  | num (n : Int)
  | bool (b : Bool)
  | null
  | undef
  | regexp (src : String)
  | arr (xs : List JVal)
  | obj (kvs : List (String × JVal))

/-- Decimal digits of a natural number, with structural fuel so that the
kernel can evaluate it (`fuel ≥ n` suffices; callers pass `n + 1`). -/
def natDigitsAux : Nat → Nat → List Char
  | 0, _ => []
  | fuel + 1, n =>
      if n < 10 then [Nat.digitChar n]
      else natDigitsAux fuel (n / 10) ++ [Nat.digitChar (n % 10)]

/-- Decimal representation of a natural number (JS `String(n)`). -/
def natRepr (n : Nat) : String :=
  String.mk (natDigitsAux (n + 1) n)

/-- JS `String(m)` for an integer number `m` (used when a number is
coerced to a property key, as in `hasOwnProperty(input.length - 1)`). -/
def intKey : Int → String
  | Int.ofNat n => natRepr n
  | Int.negSucc n => ("-") ++ natRepr (n + 1)

/-- Decimal-string to `Nat`, on the character list of a string. -/
def parseNatChars (cs : List Char) : Option Nat :=
  if cs = [] then none
  else if cs.all (fun c => c.isDigit) then
    some (cs.foldl (fun acc c => acc * 10 + (c.toNat - 48)) 0)
  else none

/-- Partial model of JS `ToNumber` at the places the source coerces a
`length` value (`input.length > 0`, `input.length - 1`, and the loop
bound `i < validatorItemArr.length`).  It is exact on numbers,
booleans, `null`, `undefined` (NaN, modeled `none`) and bare decimal
strings.  JS coerces strictly more — whitespace-trimmed, signed,
fractional, exponent and hex numerals, and `ToPrimitive` of
containers (`' 2'` and `[2]` both coerce to `2`) — which an `Int`
codomain cannot represent faithfully; those values are OUTSIDE the
modeled fragment.  Every theorem whose truth depends on classifying an
object therefore carries a `lengthValExact`/`objLengthExact`/
`lengthsExact` guard restricting `length` bindings to the exact
fragment. -/
def jsNumVal : JVal → Option Int
  | JVal.num n => some n
  | JVal.bool b => some (if b then 1 else 0)
  | JVal.null => some 0
  | JVal.str s =>
      match parseNatChars s.data with
      | some n => some (Int.ofNat n)
      | none =>
          match s.data with
          | '-' :: rest =>
              match parseNatChars rest with
              | some n => some (-(Int.ofNat n))
              | none => none
          | _ => none
  | _ => none

/-- JS `hasOwnProperty` for the two container shapes.  A dense array
owns the keys `"0" … String(length-1)` and `"length"`; an object owns
exactly its stored keys.  (Only reached on container values.) -/
def hasOwnKey : JVal → String → Bool
  | JVal.arr xs, k =>
      (List.range xs.length).any (fun i => natRepr i == k) || k == ("length")
  | JVal.obj kvs, k => kvs.any (fun p => p.1 == k)
  | _, _ => false

/-- The duck-typing test of `getType` (helpers, lines 256-260) applied
to a plain object: `input.length !== undefined && input.length > 0 &&
input.hasOwnProperty(input.length - 1)`.  Through `jsNumVal` it is
exact only for `length` bindings in the modeled coercion fragment
(see `lengthValExact`); a coercible string or container `length`
(`' 2'`, `[2]`) duck-types in JS but not here, so guarded theorems
exclude such objects.  A model-positive sniff always agrees with JS:
the positive cases are numbers, `true` and digit strings, where the
coercion is exact. -/
def sniffArrayLike (kvs : List (String × JVal)) : Bool :=
  match kvs.lookup ("length") with
  | none => false
  | some JVal.undef => false
  | some v =>
      match jsNumVal v with
      | none => false
      | some n => decide (0 < n) && hasOwnKey (JVal.obj kvs) (intKey (n - 1))

/-- The type classifier `getType` (helpers, lines 249-266).

* `typeof` handles the scalars.
* `null` is special-cased.
* A value with a defined `length > 0` owning its last index is
  `"arraylike"`; a dense non-empty array always passes this test, an
  empty array never does.
* Otherwise any value with an enumerable own property is
  `"objectlike"`.
* What remains is tagged via `Object.prototype.toString`: `"Array"`
  for `[]`, `"Object"` for `{}`, `"RegExp"` for a regular expression
  (a RegExp has no `length` property and no enumerable own keys).

Faithful except through `sniffArrayLike`'s modeled coercion fragment:
an object whose `length` is a coercible string or container is
`'arraylike'` in the source but `"objectlike"` here; theorems that
rely on an `"objectlike"` classification carry an
`objLengthExact`/`lengthsExact` guard to stay within the exact
fragment. -/
def getType : JVal → String
  | JVal.str _ => ("string")
  | JVal.num _ => ("number")
  | JVal.bool _ => ("boolean")
  | JVal.undef => ("undefined")
  | JVal.null => ("null")
  | JVal.regexp _ => ("RegExp")
  | JVal.arr xs => if 0 < xs.length then ("arraylike") else ("Array")
  | JVal.obj kvs =>
      if sniffArrayLike kvs then ("arraylike")
      else if kvs.isEmpty then ("Object")
      else ("objectlike")

-- The repository's own `getTypeTests` cases expressible in the model:
theorem getType_tests :
    getType (JVal.num 23) = ("number") ∧
    getType (JVal.str ("Complex")) = ("string") ∧
    getType (JVal.arr [JVal.num 1, JVal.num 2, JVal.num 3]) = ("arraylike") ∧
    getType (JVal.bool true) = ("boolean") ∧
    getType (JVal.arr []) = ("Array") ∧
    getType (JVal.obj [(("key"), JVal.num 24), (("length"), JVal.num 4)]) = ("objectlike") ∧
    getType (JVal.obj []) = ("Object") ∧
    getType JVal.null = ("null") ∧
    getType (JVal.regexp ("[0-9A-Z]")) = ("RegExp") := by
  refine ⟨rfl, rfl, by decide, rfl, by decide, by decide, by decide, rfl, rfl⟩

/-- JS strict equality `===` restricted to the values of the model.
Scalars compare structurally.  Two container or RegExp values are
distinct references in every situation the validator creates (the
compared validator value was built by the caller, the input parsed
from data), so `===` on them is modelled as `false`; `NaN` is not
modelled. -/
def jsStrictEq : JVal → JVal → Bool
  | JVal.num a, JVal.num b => a == b
  | JVal.str a, JVal.str b => a == b
  | JVal.bool a, JVal.bool b => a == b
  | JVal.null, JVal.null => true
  | JVal.undef, JVal.undef => true
  | _, _ => false

/-- `validator.split('"').join('')` — removes every quote character. -/
def stripQuotes (s : String) : String :=
  String.mk (s.data.filter (fun c => !(c == '"')))

/-- The scalar branch of `JSONCheck` for a string validator that
contains no `|` (json-validator, lines 286-302): a type-name compare
when the string holds no quote character, otherwise a literal compare
against the string with all quotes removed. -/
def strSchemaCheck (inputData : JVal) (s : String) : Bool :=
  if s.data.contains '"' then jsStrictEq inputData (JVal.str (stripQuotes s))
  else getType inputData == s

/-- The `/each/` sentinel test (json-validator, lines 246-248):
`getType(v) == 'RegExp' && v.toString() === '/each/'`. -/
def isEachRegExp : JVal → Bool
  | JVal.regexp src => src == ("each")
  | _ => false

/-- JS property read `v[k]` for a string key; `undefined` when absent.
The validator only reads string-keyed properties off values it has
already classified `objectlike`, so only the object case matters. -/
def jsGet : JVal → String → JVal
  | JVal.obj kvs, k => (kvs.lookup k).getD JVal.undef
  | _, _ => JVal.undef

/-- JS property read `v[i]` for a numeric index: array element, object
property at the decimal key, single-character string, `undefined`
otherwise (in particular off numbers, booleans and RegExps).  Reads
off `null`/`undefined` throw in JS and are modelled separately at the
one place the validator can perform them. -/
def jsIndex : JVal → Nat → JVal
  | JVal.arr xs, i => xs.getD i JVal.undef
  | JVal.obj kvs, i => (kvs.lookup (natRepr i)).getD JVal.undef
  | JVal.str s, i =>
      match s.data.get? i with
      | some c => JVal.str (String.mk [c])
      | none => JVal.undef
  | _, _ => JVal.undef

/-- The bound of the positional loop `for(let i = 0; i < validatorItemArr.length; i++)`
(json-validator, line 269).  `length` of an array is its size; of an
object it is the `length` property coerced by `<` (on NaN or a
non-positive value the loop runs zero times); numbers, booleans,
`null` and RegExps have no `length` property, so the loop is skipped.
(The string case never reaches this loop — string candidates are
handled earlier — but is given its JS value for totality.)
Exact for object candidates only when the `length` binding is in the
modeled coercion fragment (see `lengthValExact`): the source coerces
`{length:' 2'}` or `{length:[2]}` to bound `2` where this model sees
NaN, so theorems concluding from a zero bound carry an
`objLengthExact` guard. -/
def jsLoopLength : JVal → Nat
  | JVal.arr xs => xs.length
  | JVal.str s => s.data.length
  | JVal.obj kvs =>
      match kvs.lookup ("length") with
      | none => 0
      | some v =>
          match jsNumVal v with
          | none => 0
          | some n => n.toNat
  | _ => 0

/-- JS `s.split('|')` on the character list of `s`. -/
def splitPipe : List Char → List (List Char)
  | [] => [[]]
  | c :: cs =>
      if c = '|' then [] :: splitPipe cs
      else
        match splitPipe cs with
        | [] => [[c]]
        | p :: ps => (c :: p) :: ps

/-- The validator rewrite at the top of `JSONCheck` (lines 222-228):
a string validator containing `|` is split into an array of strings
before dispatch; every other validator is left alone. -/
def splitValidator : JVal → JVal
  | JVal.str s =>
      if s.data.contains '|' then
        JVal.arr ((splitPipe s.data).map (fun p => JVal.str (String.mk p)))
      else JVal.str s
  | v => v

theorem splitPipe_ne_nil (cs : List Char) : splitPipe cs ≠ [] := by
  induction cs with
  | nil => simp [splitPipe]
  | cons c cs ih =>
      simp only [splitPipe]
      split
      · simp
      · split
        · simp
        · simp

theorem splitPipe_no_pipe (cs : List Char) : ∀ p ∈ splitPipe cs, '|' ∉ p := by
  induction cs with
  | nil => intro p hp; simp [splitPipe] at hp; simp [hp]
  | cons c cs ih =>
      intro p hp
      simp only [splitPipe] at hp
      by_cases hc : c = '|'
      · simp [hc] at hp
        rcases hp with h | h
        · simp [h]
        · exact ih p h
      · simp [hc] at hp
        rcases hq : splitPipe cs with _ | ⟨q, qs⟩
        · exact absurd hq (splitPipe_ne_nil cs)
        · rw [hq] at hp
          simp at hp
          rcases hp with h | h
          · subst h
            intro hmem
            rcases List.mem_cons.mp hmem with h' | h'
            · exact hc h'.symm
            · exact ih q (by rw [hq]; exact List.mem_cons_self q qs) h'
          · exact ih p (by rw [hq]; exact List.mem_cons_of_mem q h)

theorem splitPipe_of_no_pipe (cs : List Char) (h : '|' ∉ cs) :
    splitPipe cs = [cs] := by
  induction cs with
  | nil => rfl
  | cons c cs ih =>
      simp only [splitPipe]
      have hc : ¬ c = '|' := fun hcc => h (hcc ▸ List.mem_cons_self c cs)
      have hcs : '|' ∉ cs := fun hm => h (List.mem_cons_of_mem c hm)
      rw [if_neg hc, ih hcs]

theorem splitPipe_append (a b : List Char) (ha : '|' ∉ a) (hb : '|' ∉ b) :
    splitPipe (a ++ '|' :: b) = [a, b] := by
  induction a with
  | nil => simp [splitPipe, splitPipe_of_no_pipe b hb]
  | cons c a ih =>
      have hc : ¬ c = '|' := fun hcc => ha (hcc ▸ List.mem_cons_self c a)
      have ha' : '|' ∉ a := fun hm => ha (List.mem_cons_of_mem c hm)
      show splitPipe (c :: (a ++ '|' :: b)) = [c :: a, b]
      simp only [splitPipe, if_neg hc]
      rw [ih ha']


-- Termination measure for the validator recursion.  A string that
-- contains `|` is charged for the strings its split produces (each of
-- which measures `1`, having no pipe); containers are charged one more
-- than the sum of their parts.
mutual
def vsize : JVal → Nat
  | JVal.str s => if s.data.contains '|' then 2 + (splitPipe s.data).length else 1
  | JVal.arr xs => 1 + vsizeList xs
  | JVal.obj kvs => 1 + vsizePairs kvs
  | _ => 1
def vsizeList : List JVal → Nat
  | [] => 0
  | x :: xs => vsize x + vsizeList xs
def vsizePairs : List (String × JVal) → Nat
  | [] => 0
  | p :: rest => vsize p.2 + vsizePairs rest
end

theorem vsize_pos (v : JVal) : 0 < vsize v := by
  cases v <;> simp only [vsize] <;> (try split) <;> omega

theorem vsizeList_mem_le {x : JVal} {xs : List JVal} (h : x ∈ xs) :
    vsize x ≤ vsizeList xs := by
  induction xs with
  | nil => cases h
  | cons y ys ih =>
      simp only [vsizeList]
      rcases List.mem_cons.mp h with h' | h'
      · subst h'; omega
      · have := ih h'; omega

theorem vsizePairs_mem_le {p : String × JVal} {kvs : List (String × JVal)}
    (h : p ∈ kvs) : vsize p.2 ≤ vsizePairs kvs := by
  induction kvs with
  | nil => cases h
  | cons q qs ih =>
      simp only [vsizePairs]
      rcases List.mem_cons.mp h with h' | h'
      · subst h'; omega
      · have := ih h'; omega

theorem vsize_lookup_le {kvs : List (String × JVal)} {k : String} {v : JVal}
    (h : kvs.lookup k = some v) : vsize v ≤ vsizePairs kvs := by
  induction kvs with
  | nil => simp [List.lookup] at h
  | cons q qs ih =>
      rcases q with ⟨qk, qv⟩
      simp only [List.lookup] at h
      by_cases hk : k == qk
      · rw [hk] at h
        simp only [vsizePairs]
        simp at h
        subst h
        omega
      · rw [Bool.not_eq_true] at hk
        rw [hk] at h
        have := ih h
        simp only [vsizePairs]
        omega

theorem vsize_str_no_pipe {s : String} (h : s.data.contains '|' = false) :
    vsize (JVal.str s) = 1 := by
  simp only [vsize, h]
  simp

theorem splitPipe_length_ge_two {cs : List Char} (h : '|' ∈ cs) :
    2 ≤ (splitPipe cs).length := by
  induction cs with
  | nil => cases h
  | cons c cs ih =>
      simp only [splitPipe]
      by_cases hc : c = '|'
      · rw [if_pos hc]
        have := splitPipe_ne_nil cs
        have : 0 < (splitPipe cs).length := List.length_pos.mpr this
        simp only [List.length_cons]
        omega
      · rw [if_neg hc]
        have h' : '|' ∈ cs := by
          rcases List.mem_cons.mp h with h'' | h''
          · exact absurd h''.symm hc
          · exact h''
        have := ih h'
        rcases hq : splitPipe cs with _ | ⟨q, qs⟩
        · exact absurd hq (splitPipe_ne_nil cs)
        · rw [hq] at this
          simp only [List.length_cons] at this ⊢
          omega

theorem vsize_getD_le (xs : List JVal) (i : Nat) :
    vsize (xs.getD i JVal.undef) ≤ 1 + vsizeList xs := by
  induction xs generalizing i with
  | nil =>
      simp only [List.getD_nil]
      simp only [vsize, vsizeList]
      omega
  | cons y ys ih =>
      cases i with
      | zero =>
          simp only [List.getD_cons_zero, vsizeList]
          omega
      | succ j =>
          simp only [List.getD_cons_succ, vsizeList]
          have := ih j
          omega

theorem vsize_jsIndex_le (v : JVal) (i : Nat) : vsize (jsIndex v i) ≤ vsize v := by
  cases v with
  | arr xs =>
      have := vsize_getD_le xs i
      simpa only [jsIndex, vsize] using this
  | obj kvs =>
      simp only [jsIndex]
      rcases h : kvs.lookup (natRepr i) with _ | v'
      · simp only [Option.getD_none, vsize]; omega
      · simp only [Option.getD_some, vsize]
        have := vsize_lookup_le h
        omega
  | str s =>
      simp only [jsIndex]
      rcases h : s.data.get? i with _ | c
      · have h1 : vsize JVal.undef = 1 := rfl
        rw [h1]
        exact vsize_pos _
      · by_cases hc : c = '|'
        · subst hc
          have hmem : '|' ∈ s.data := List.get?_mem h
          have hcon : s.data.contains '|' = true := by
            exact List.contains_iff_exists_mem_beq.mpr ⟨'|', hmem, by simp⟩
          have h2 : 2 ≤ (splitPipe s.data).length := splitPipe_length_ge_two hmem
          simp only [vsize, hcon]
          norm_num
          have h3 : (splitPipe [Char.ofNat 124]).length = 2 := rfl
          have h4 : ('|') = Char.ofNat 124 := rfl
          rw [h4, h3]
          omega
        · have hcs : (String.mk [c]).data.contains '|' = false := by
            show [c].contains '|' = false
            simp [hc]
            intro hcc
            exact absurd hcc.symm hc
          rw [vsize_str_no_pipe hcs]
          exact vsize_pos _
  | _ => exact vsize_pos _

theorem lex3a {a b c x y z : Nat} (h : a < x) :
    Prod.Lex (· < ·) (Prod.Lex (· < ·) (· < ·)) (a, b, c) (x, y, z) :=
  Prod.Lex.left _ _ h

theorem lex3b {a b c x y z : Nat} (h : a = x) (h2 : b < y) :
    Prod.Lex (· < ·) (Prod.Lex (· < ·) (· < ·)) (a, b, c) (x, y, z) := by
  subst h; exact Prod.Lex.right _ (Prod.Lex.left _ _ h2)

theorem lex3c {a b c x y z : Nat} (h : a = x) (h2 : b = y) (h3 : c < z) :
    Prod.Lex (· < ·) (Prod.Lex (· < ·) (· < ·)) (a, b, c) (x, y, z) := by
  subst h; subst h2; exact Prod.Lex.right _ (Prod.Lex.right _ h3)

theorem lex3d {a b c x y z : Nat} (h : a ≤ x) (h2 : b < y) :
    Prod.Lex (· < ·) (Prod.Lex (· < ·) (· < ·)) (a, b, c) (x, y, z) := by
  rcases Nat.lt_or_ge a x with h' | h'
  · exact lex3a h'
  · exact lex3b (Nat.le_antisymm h h') h2

theorem lex3e {a b c x y z : Nat} (h : a ≤ x) (h2 : b = y) (h3 : c < z) :
    Prod.Lex (· < ·) (Prod.Lex (· < ·) (· < ·)) (a, b, c) (x, y, z) := by
  rcases Nat.lt_or_ge a x with h' | h'
  · exact lex3a h'
  · exact lex3c (Nat.le_antisymm h h') h2 h3

theorem char_contains_false {cs : List Char} {c : Char} (h : c ∉ cs) :
    cs.contains c = false := by
  induction cs with
  | nil => rfl
  | cons a as ih =>
      have h1 : ¬ c = a := fun hh => h (hh ▸ List.mem_cons_self a as)
      have h2 : c ∉ as := fun hm => h (List.mem_cons_of_mem a hm)
      simp [List.contains_cons, h1, h2]

theorem vsizeList_map_str (ps : List (List Char)) (hp : ∀ p ∈ ps, '|' ∉ p) :
    vsizeList (ps.map (fun p => JVal.str (String.mk p))) = ps.length := by
  induction ps with
  | nil => rfl
  | cons p rest ih =>
      simp only [List.map_cons, vsizeList, List.length_cons]
      have hnp : (String.mk p).data.contains '|' = false :=
        char_contains_false (hp p (List.mem_cons_self p rest))
      rw [vsize_str_no_pipe hnp, ih (fun q hq => hp q (List.mem_cons_of_mem p hq))]
      omega

theorem splitValidator_obj_eq {v0 : JVal} {kvs : List (String × JVal)}
    (hs : splitValidator v0 = JVal.obj kvs) : v0 = JVal.obj kvs := by
  cases v0 <;> simp only [splitValidator] at hs <;> first
    | exact hs
    | cases hs
    | (split at hs <;> cases hs)

theorem splitValidator_str_eq {v0 : JVal} {s : String}
    (hs : splitValidator v0 = JVal.str s) :
    v0 = JVal.str s ∧ s.data.contains '|' = false := by
  cases v0 <;> simp only [splitValidator] at hs
  case str t =>
    by_cases hc : t.data.contains '|'
    · rw [if_pos hc] at hs; cases hs
    · rw [if_neg hc] at hs
      cases hs
      exact ⟨rfl, Bool.not_eq_true _ ▸ by simpa using hc⟩
  all_goals cases hs

theorem splitValidator_arr_vsize {v0 : JVal} {l : List JVal}
    (hs : splitValidator v0 = JVal.arr l) : vsizeList l < vsize v0 := by
  cases v0 <;> simp only [splitValidator] at hs
  case str s =>
    by_cases hc : s.data.contains '|'
    · rw [if_pos hc] at hs
      have hl : l = (splitPipe s.data).map (fun p => JVal.str (String.mk p)) := by
        cases hs; rfl
      subst hl
      rw [vsizeList_map_str _ (fun p hp => splitPipe_no_pipe s.data p hp)]
      simp only [vsize, hc]
      simp
    · rw [if_neg hc] at hs; cases hs
  case arr xs =>
    cases hs
    simp only [vsize]
    omega
  all_goals cases hs

theorem vsizeList_head_le (v : JVal) (rest : List JVal) :
    vsize v ≤ vsizeList (v :: rest) := by
  simp only [vsizeList]; omega

theorem vsizeList_tail_lt (v : JVal) (rest : List JVal) :
    vsizeList rest < vsizeList (v :: rest) := by
  have := vsize_pos v; simp only [vsizeList]; omega

theorem vsizePairs_head_le (k : String) (v : JVal) (rest : List (String × JVal)) :
    vsize v ≤ vsizePairs ((k, v) :: rest) := by
  simp only [vsizePairs]; omega

theorem vsizePairs_tail_lt (p : String × JVal) (rest : List (String × JVal)) :
    vsizePairs rest < vsizePairs (p :: rest) := by
  have := vsize_pos p.2; simp only [vsizePairs]; omega

/-- The member access `validatorItemArr[0]` performed by the each test
(line 247): reading a property off `null` or `undefined` throws a
`TypeError` in JS; off every other value it is `jsIndex · 0`. -/
def jsIndex0E : JVal → Except String JVal
  | JVal.null => Except.error ("TypeError: cannot read properties of null")
  | JVal.undef => Except.error ("TypeError: cannot read properties of undefined")
  | v => Except.ok (jsIndex v 0)

mutual

/-- The validator `JSONCheck(inputData, validator)` (json-validator,
lines 217-304), with a thrown `TypeError` modelled as `Except.error`.

* Lines 222-228: a string validator containing `|` is first split
  (`splitValidator`).
* Lines 230-238: an `objectlike` validator demands an `objectlike`
  input and then checks every validator key (`checkObjPairs`).
* Lines 240-280: an `arraylike` validator over an `arraylike` input
  maps candidate evaluation over the validator entries
  (`checkCandidates`) and passes when at least one candidate passed.
  When the `arraylike` validator is not an actual array (an object
  duck-typed by `getType`), JS throws `validator.map is not a
  function` — in both input branches.
* Lines 282-284: an `arraylike` validator over any other input treats
  every entry as a whole-input alternative (`checkAlternation`).
* Lines 286-302: any other validator is a type-name, literal, or
  plain-value compare (`strSchemaCheck` / `jsStrictEq`). -/
def JSONCheckE (inputData validator0 : JVal) : Except String Bool :=
  let inputType := getType inputData
  match hs : splitValidator validator0 with
  | JVal.obj kvs =>
      if getType (JVal.obj kvs) = ("objectlike") then
        if inputType ≠ ("objectlike") then Except.ok false
        else checkObjPairs inputData kvs
      else if getType (JVal.obj kvs) = ("arraylike") then
        Except.error ("TypeError: validator.map is not a function")
      else Except.ok (jsStrictEq inputData (JVal.obj kvs))
  | JVal.arr vitems =>
      if getType (JVal.arr vitems) = ("arraylike") then
        if inputType = ("arraylike") then do
          let valid ← checkCandidates inputData vitems
          Except.ok (decide (0 < (valid.filter (fun b => b == true)).length))
        else do
          let rs ← checkAlternation inputData vitems
          Except.ok (decide (0 < (rs.filter (fun b => b == true)).length))
      else Except.ok (jsStrictEq inputData (JVal.arr vitems))
  | JVal.str s => Except.ok (strSchemaCheck inputData s)
  | v => Except.ok (jsStrictEq inputData v)
  termination_by (vsize validator0, 0, 0)
  decreasing_by
    · exact lex3a (by
        have h := splitValidator_obj_eq hs
        subst h
        simp only [vsize]
        omega)
    · exact lex3a (splitValidator_arr_vsize hs)
    · exact lex3a (splitValidator_arr_vsize hs)

/-- The key loop of the `objectlike` branch (lines 232-237):
`for(var k in validator) { if (!JSONCheck(inputData[k], validator[k]))
return false }` — early exit on the first failing key.  (A real JS
object iterates each of its distinct keys once, in insertion order.) -/
def checkObjPairs (inputData : JVal) : List (String × JVal) → Except String Bool
  | [] => Except.ok true
  | (k, v) :: rest => do
      let valid ← JSONCheckE (jsGet inputData k) v
      if valid = false then Except.ok false
      else checkObjPairs inputData rest
  termination_by pairs => (vsizePairs pairs, 1, 0)
  decreasing_by
    · exact lex3d (vsizePairs_head_le _ _ _) (by omega)
    · exact lex3a (vsizePairs_tail_lt _ _)

/-- `validator.map(validatorItemArr => …)` (line 244): evaluate every
candidate in order, collecting the booleans (a thrown error anywhere
aborts the whole map, exactly as in JS). -/
def checkCandidates (inputData : JVal) : List JVal → Except String (List Bool)
  | [] => Except.ok []
  | cand :: rest => do
      let b ← checkCandidate inputData cand
      let bs ← checkCandidates inputData rest
      Except.ok (b :: bs)
  termination_by cands => (vsizeList cands, 2, 0)
  decreasing_by
    · exact lex3d (vsizeList_head_le _ _) (by omega)
    · exact lex3a (vsizeList_tail_lt _ _)

/-- The body of the candidate lambda (lines 245-275).

* Reading `validatorItemArr[0]` off a `null`/`undefined` candidate
  throws (`jsIndex0E`).
* The each case (lines 246-258): `slice(1)` demands an actual array
  candidate, `inputData.map` an actual array input; then every input
  element must match at least one of the remaining sub-schemas.
* A string candidate (lines 264-267) is applied to the whole input.
* Any other candidate is checked positionally over
  `0 ≤ i < validatorItemArr.length` (lines 269-275); a candidate
  without numeric length yields zero iterations and passes. -/
def checkCandidate (inputData cand : JVal) : Except String Bool := do
  let c0 ← jsIndex0E cand
  if isEachRegExp c0 then
    match cand with
    | JVal.arr items =>
        match inputData with
        | JVal.arr xs => do
            let mapRes ← checkEachElems xs (items.drop 1)
            Except.ok (decide ((mapRes.filter (fun b => b == false)).length = 0))
        | _ => Except.error ("TypeError: inputData.map is not a function")
    | _ => Except.error ("TypeError: validatorItemArr.slice is not a function")
  else if getType cand = ("string") then
    JSONCheckE inputData cand
  else do
    let validArr ← checkTupleIdx inputData cand (List.range (jsLoopLength cand))
    Except.ok (decide ((validArr.filter (fun b => b == false)).length = 0))
  termination_by (vsize cand, 1, 0)
  decreasing_by
    · rename_i items
      rcases items with _ | ⟨v, tl⟩
      · exact lex3b (by simp [vsize, vsizeList]) (by omega)
      · exact lex3a (by
          have := vsize_pos v
          simp only [vsize, vsizeList, List.drop_succ_cons, List.drop_zero]
          omega)
    · exact lex3b rfl (by omega)
    · exact lex3b rfl (by omega)

/-- `inputData.map(inputDataItem => …)` of the each case (lines
251-256): for every input element, the remaining entries of the each
candidate are tried (`checkEachOne`) and the element passes when at
least one matched. -/
def checkEachElems (xs validations : List JVal) : Except String (List Bool) :=
  match xs with
  | [] => Except.ok []
  | x :: rest => do
      let rs ← checkEachOne x validations
      let b := decide (0 < (rs.filter (fun b2 => b2 == true)).length)
      let bs ← checkEachElems rest validations
      Except.ok (b :: bs)
  termination_by (1 + vsizeList validations, 0, xs.length)
  decreasing_by
    · exact lex3a (by omega)
    · exact lex3c rfl rfl (by simp)

/-- `validations.map(validationItem => JSONCheck(inputDataItem, validationItem))`
(line 253). -/
def checkEachOne (x : JVal) : List JVal → Except String (List Bool)
  | [] => Except.ok []
  | v :: rest => do
      let b ← JSONCheckE x v
      let bs ← checkEachOne x rest
      Except.ok (b :: bs)
  termination_by vals => (vsizeList vals, 1, 0)
  decreasing_by
    · exact lex3d (vsizeList_head_le _ _) (by omega)
    · exact lex3a (vsizeList_tail_lt _ _)

/-- The positional loop (lines 269-272):
`validArr[i] = JSONCheck(inputData[i], validatorItemArr[i])` over the
listed indices. -/
def checkTupleIdx (inputData cand : JVal) : List Nat → Except String (List Bool)
  | [] => Except.ok []
  | i :: rest => do
      let b ← JSONCheckE (jsIndex inputData i) (jsIndex cand i)
      let bs ← checkTupleIdx inputData cand rest
      Except.ok (b :: bs)
  termination_by idxs => (vsize cand, 0, idxs.length + 1)
  decreasing_by
    · exact lex3e (vsize_jsIndex_le cand i) rfl (by omega)
    · exact lex3c rfl rfl (by simp)

/-- The flat alternation of line 282:
`validator.map(validatorItem => JSONCheck(inputData, validatorItem))`,
used when the input is not `arraylike`. -/
def checkAlternation (inputData : JVal) : List JVal → Except String (List Bool)
  | [] => Except.ok []
  | v :: rest => do
      let b ← JSONCheckE inputData v
      let bs ← checkAlternation inputData rest
      Except.ok (b :: bs)
  termination_by cands => (vsizeList cands, 2, 0)
  decreasing_by
    · exact lex3d (vsizeList_head_le _ _) (by omega)
    · exact lex3a (vsizeList_tail_lt _ _)

end

instance : DecidableEq (Except String Bool) := fun a b =>
  match a, b with
  | Except.ok x, Except.ok y =>
      if h : x = y then isTrue (by rw [h]) else isFalse (by intro hc; cases hc; exact h rfl)
  | Except.error e, Except.error f =>
      if h : e = f then isTrue (by rw [h]) else isFalse (by intro hc; cases hc; exact h rfl)
  | Except.ok _, Except.error _ => isFalse (by intro hc; cases hc)
  | Except.error _, Except.ok _ => isFalse (by intro hc; cases hc)

theorem splitValidator_of_no_pipe {s : String} (h : s.data.contains '|' = false) :
    splitValidator (JVal.str s) = JVal.str s := by
  have h2 : '|' ∉ s.data := by simpa using h
  simp [splitValidator, h2]

/-- A string validator without a pipe is dispatched straight to the
scalar compare branch. -/
theorem JSONCheckE_str_noPipe (x : JVal) (s : String)
    (h : s.data.contains '|' = false) :
    JSONCheckE x (JVal.str s) = Except.ok (strSchemaCheck x s) := by
  rw [JSONCheckE]
  split
  case _ kvs heq => rw [splitValidator_of_no_pipe h] at heq; cases heq
  case _ vitems heq => rw [splitValidator_of_no_pipe h] at heq; cases heq
  case _ s2 heq =>
      rw [splitValidator_of_no_pipe h] at heq
      cases heq
      rfl
  case _ =>
      rename_i hno
      exact absurd (splitValidator_of_no_pipe h) (hno s)

/-- Splitting a pipe-carrying string validator reduces validation to
the array of its pieces (lines 222-228 followed by the array dispatch). -/
theorem JSONCheckE_str_pipe (x : JVal) (s : String)
    (h : s.data.contains '|' = true) :
    JSONCheckE x (JVal.str s) =
      JSONCheckE x (JVal.arr ((splitPipe s.data).map (fun p => JVal.str (String.mk p)))) := by
  conv_lhs => rw [JSONCheckE]
  conv_rhs => rw [JSONCheckE]
  have h2 : '|' ∈ s.data := by simpa using h
  have hsplit : splitValidator (JVal.str s) =
      JVal.arr ((splitPipe s.data).map (fun p => JVal.str (String.mk p))) := by
    simp [splitValidator, h2]
  rw [hsplit]
  rfl

/-- Dispatch of an array validator (lines 240-284). -/
theorem JSONCheckE_arr (x : JVal) (vitems : List JVal) :
    JSONCheckE x (JVal.arr vitems) =
      if getType (JVal.arr vitems) = ("arraylike") then
        if getType x = ("arraylike") then do
          let valid ← checkCandidates x vitems
          Except.ok (decide (0 < (valid.filter (fun b => b == true)).length))
        else do
          let rs ← checkAlternation x vitems
          Except.ok (decide (0 < (rs.filter (fun b => b == true)).length))
      else Except.ok (jsStrictEq x (JVal.arr vitems)) := by
  rw [JSONCheckE]
  rfl

/-- Dispatch of an object validator (lines 230-238; the `arraylike`
case is the thrown `validator.map` of a duck-typed object). -/
theorem JSONCheckE_obj (x : JVal) (kvs : List (String × JVal)) :
    JSONCheckE x (JVal.obj kvs) =
      if getType (JVal.obj kvs) = ("objectlike") then
        if getType x ≠ ("objectlike") then Except.ok false
        else checkObjPairs x kvs
      else if getType (JVal.obj kvs) = ("arraylike") then
        Except.error ("TypeError: validator.map is not a function")
      else Except.ok (jsStrictEq x (JVal.obj kvs)) := by
  rw [JSONCheckE]
  rfl

/-- Dispatch of a validator that is neither a string nor a container:
the value-based compare of lines 297-302. -/
theorem JSONCheckE_scalar (x v : JVal)
    (hobj : ∀ kvs, v ≠ JVal.obj kvs) (harr : ∀ l, v ≠ JVal.arr l)
    (hstr : ∀ s, v ≠ JVal.str s) :
    JSONCheckE x v = Except.ok (jsStrictEq x v) := by
  have hsplit : splitValidator v = v := by
    cases v <;> first
      | rfl
      | exact absurd rfl (hstr _)
  rw [JSONCheckE]
  split
  case _ kvs heq => rw [hsplit] at heq; exact absurd heq (hobj kvs)
  case _ vitems heq => rw [hsplit] at heq; exact absurd heq (harr vitems)
  case _ s2 heq => rw [hsplit] at heq; exact absurd heq (hstr s2)
  case _ => rw [hsplit]

/-- Scalar-kind values in the sense of the specification glossary
(classified by `typeof`/`null`, not a sequence or keyed collection;
functions and symbols are outside the model). -/
def isScalarKind : JVal → Bool
  | JVal.str _ => true
  | JVal.num _ => true
  | JVal.bool _ => true
  | JVal.null => true
  | JVal.undef => true
  | _ => false

theorem filter_true_pos (l : List Bool) :
    decide (0 < (l.filter (fun b => b == true)).length) = l.any (fun b => b) := by
  induction l with
  | nil => rfl
  | cons b rest ih =>
      cases b <;> simp_all [List.filter_cons]

theorem filter_false_zero (l : List Bool) :
    decide ((l.filter (fun b => b == false)).length = 0) = l.all (fun b => b) := by
  induction l with
  | nil => rfl
  | cons b rest ih =>
      cases b <;> simp_all [List.filter_cons]

@[simp]
theorem exceptOk_bind {a : Type} {b : Type} (x : a) (f : a → Except String b) :
    (Except.ok x : Except String a) >>= f = f x := rfl

@[simp]
theorem exceptError_bind {a : Type} {b : Type} (e : String) (f : a → Except String b) :
    (Except.error e : Except String a) >>= f = Except.error e := rfl

theorem isEach_jsIndex_str (s : String) (i : Nat) :
    isEachRegExp (jsIndex (JVal.str s) i) = false := by
  simp only [jsIndex]
  rcases s.data.get? i with _ | c <;> rfl

/-- A pipe-free string candidate inside an array validator is applied
to the whole input (lines 264-267). -/
theorem checkCandidate_str (x : JVal) (t : String)
    (h : t.data.contains '|' = false) :
    checkCandidate x (JVal.str t) = Except.ok (strSchemaCheck x t) := by
  rw [checkCandidate]
  simp [jsIndex0E, exceptOk_bind, isEach_jsIndex_str, getType,
    JSONCheckE_str_noPipe x t h]
  exact fun xs hxx => JVal.noConfusion hxx

theorem string_data_append2 (t1 t2 : String) :
    (t1 ++ ("|") ++ t2).data = t1.data ++ '|' :: t2.data := by
  rcases t1 with ⟨d1⟩
  rcases t2 with ⟨d2⟩
  show (d1 ++ ['|']) ++ d2 = d1 ++ '|' :: d2
  simp

/-- Claim C2 (union law): a two-way pipe-joined schema string passes
exactly when either side passes on the whole input. -/
theorem claim2_union_law (x : JVal) (t1 t2 : String)
    (h1 : t1.data.contains '|' = false) (h2 : t2.data.contains '|' = false) :
    JSONCheckE x (JVal.str (t1 ++ ("|") ++ t2)) =
      Except.ok (strSchemaCheck x t1 || strSchemaCheck x t2) ∧
    JSONCheckE x (JVal.str t1) = Except.ok (strSchemaCheck x t1) ∧
    JSONCheckE x (JVal.str t2) = Except.ok (strSchemaCheck x t2) := by
  refine ⟨?_, JSONCheckE_str_noPipe x t1 h1, JSONCheckE_str_noPipe x t2 h2⟩
  have hd := string_data_append2 t1 t2
  have hc : (t1 ++ ("|") ++ t2).data.contains '|' = true := by
    rw [hd]
    have : '|' ∈ t1.data ++ '|' :: t2.data := by simp
    simpa using this
  rw [JSONCheckE_str_pipe x _ hc, hd,
    splitPipe_append t1.data t2.data (by simpa using h1) (by simpa using h2)]
  have he1 : String.mk t1.data = t1 := rfl
  have he2 : String.mk t2.data = t2 := rfl
  simp only [List.map_cons, List.map_nil, he1, he2]
  rw [JSONCheckE_arr]
  have hga : getType (JVal.arr [JVal.str t1, JVal.str t2]) = ("arraylike") := by
    simp [getType]
  rw [hga]
  simp only [if_pos rfl]
  by_cases hx : getType x = ("arraylike")
  · rw [if_pos hx]
    rw [checkCandidates, checkCandidate_str x t1 h1]
    rw [checkCandidates, checkCandidate_str x t2 h2]
    rw [checkCandidates]
    simp only [exceptOk_bind]
    rw [filter_true_pos]
    simp
  · rw [if_neg hx]
    rw [checkAlternation, JSONCheckE_str_noPipe x t1 h1]
    rw [checkAlternation, JSONCheckE_str_noPipe x t2 h2]
    rw [checkAlternation]
    simp only [exceptOk_bind]
    rw [filter_true_pos]
    simp

/-- Claim C2 witness. -/
theorem claim2_witness :
    (("number").data.contains '|' = false) ∧
    (("string").data.contains '|' = false) ∧
    JSONCheckE (JVal.num 3) (JVal.str (("number") ++ ("|") ++ ("string"))) =
      Except.ok (strSchemaCheck (JVal.num 3) ("number") || strSchemaCheck (JVal.num 3) ("string")) :=
  ⟨by decide, by decide,
    (claim2_union_law (JVal.num 3) ("number") ("string") (by decide) (by decide)).1⟩

/-- Claim C5 (type-name law): for a scalar input and a quote-free,
pipe-free schema string, validation succeeds exactly when the
classifier tag equals the schema string — so it fails for every other
type name. -/
theorem claim5_typeName_law (x : JVal) (t : String) (hx : isScalarKind x = true)
    (hp : t.data.contains '|' = false) (hq : t.data.contains '"' = false) :
    JSONCheckE x (JVal.str t) = Except.ok (getType x == t) := by
  rw [JSONCheckE_str_noPipe x t hp]
  have hq2 : ('"') ∉ t.data := by simpa using hq
  simp [strSchemaCheck, hq2]

/-- Claim C5 witness. -/
theorem claim5_witness :
    isScalarKind (JVal.num 3) = true ∧
    (("number").data.contains '|' = false) ∧
    (("number").data.contains '"' = false) ∧
    JSONCheckE (JVal.num 3) (JVal.str ("number")) =
      Except.ok (getType (JVal.num 3) == ("number")) :=
  ⟨rfl, by decide, by decide,
    claim5_typeName_law (JVal.num 3) ("number") rfl (by decide) (by decide)⟩

/-- Claim C6 (literal law with strip-all-quotes semantics):
`validate(x, '"foo"')` is strict equality with the string `foo`, and a
schema string with an interior quote such as `'"a"b"'` matches exactly
the string `ab`. -/
theorem claim6_literal_law (x : JVal) :
    JSONCheckE x (JVal.str ("\"foo\"")) = Except.ok (jsStrictEq x (JVal.str ("foo"))) ∧
    JSONCheckE x (JVal.str ("\"a\"b\"")) = Except.ok (jsStrictEq x (JVal.str ("ab"))) ∧
    (JSONCheckE x (JVal.str ("\"a\"b\"")) = Except.ok true ↔ x = JVal.str ("ab")) := by
  have e1 := JSONCheckE_str_noPipe x ("\"foo\"") (by decide)
  have e2 := JSONCheckE_str_noPipe x ("\"a\"b\"") (by decide)
  have s1 : strSchemaCheck x ("\"foo\"") = jsStrictEq x (JVal.str ("foo")) := by
    have hst : stripQuotes ("\"foo\"") = ("foo") := by decide
    simp only [strSchemaCheck]
    rw [if_pos (by decide), hst]
  have s2 : strSchemaCheck x ("\"a\"b\"") = jsStrictEq x (JVal.str ("ab")) := by
    have hst : stripQuotes ("\"a\"b\"") = ("ab") := by decide
    simp only [strSchemaCheck]
    rw [if_pos (by decide), hst]
  refine ⟨by rw [e1, s1], by rw [e2, s2], ?_⟩
  rw [e2, s2]
  constructor
  · intro hok
    have hb : jsStrictEq x (JVal.str ("ab")) = true := by
      injection hok
    cases x <;> simp [jsStrictEq] at hb <;> simp [hb]
  · intro hx
    subst hx
    decide

theorem getType_objectlike_obj {v : JVal} (h : getType v = ("objectlike")) :
    ∃ kvs, v = JVal.obj kvs ∧ kvs ≠ [] := by
  cases v <;> simp only [getType] at h
  case arr xs => split at h <;> exact absurd h (by decide)
  case obj kvs =>
      refine ⟨kvs, rfl, ?_⟩
      split at h
      · exact absurd h (by decide)
      · split at h
        · exact absurd h (by decide)
        · rename_i hemp
          simpa using hemp
  all_goals exact absurd h (by decide)

/-- Length bindings on which the model's coercion provably agrees with
JS: plain integers small enough that a double represents them exactly
and `String` prints them in decimal (`|n| < 2^53`), booleans, `null`
and `undefined`.  String lengths (`' 2'`), container lengths (`[2]`)
and exotic numerals are excluded: the source coerces them through the
full `ToNumber`/`ToPrimitive` machinery, which the `Int`-valued model
does not reproduce. -/
def lengthValExact : JVal → Bool
  | JVal.num n => decide (n.natAbs < 2 ^ 53)
  | JVal.bool _ => true
  | JVal.null => true
  | JVal.undef => true
  | _ => false

/-- The object binds `length` (if at all) to a value in the exactly
modeled coercion fragment, so `sniffArrayLike`, `getType` and
`jsLoopLength` on this object match the source. -/
def objLengthExact (kvs : List (String × JVal)) : Bool :=
  match kvs.lookup ("length") with
  | none => true
  | some v => lengthValExact v

-- Every object reachable inside the value has an exactly modeled
-- `length` binding, making the classifier faithful on the whole tree
-- (every subvalue the recursive validation can visit).
mutual
def lengthsExact : JVal → Bool
  | JVal.obj kvs => objLengthExact kvs && lengthsExactPairs kvs
  | JVal.arr xs => lengthsExactList xs
  | _ => true
def lengthsExactList : List JVal → Bool
  | [] => true
  | x :: xs => lengthsExact x && lengthsExactList xs
def lengthsExactPairs : List (String × JVal) → Bool
  | [] => true
  | p :: rest => lengthsExact p.2 && lengthsExactPairs rest
end

/-- Claim C1, counterexample: the spec's vacuous-truth law
`validate([], [[/each/, "number"]]) == true` does not hold — the code
returns `false` on the empty array. -/
theorem claim1_counterexample :
    ¬ (JSONCheckE (JVal.arr [])
        (JVal.arr [JVal.arr [JVal.regexp ("each"), JVal.str ("number")]]) =
      Except.ok true) := by
  have h : JSONCheckE (JVal.arr [])
      (JVal.arr [JVal.arr [JVal.regexp ("each"), JVal.str ("number")]]) =
      Except.ok false := by
    simp +decide [JSONCheckE_arr, JSONCheckE_scalar, JSONCheckE_str_noPipe,
      checkAlternation, getType, jsStrictEq, strSchemaCheck]
  rw [h]
  simp

/-- Claim C1 as amended: the empty array is classified `"Array"`, not
sequence-kind, so the schema list is treated as whole-input
alternation, no candidate matches, and the call returns `false`; the
each-clause is never consulted on an empty input. -/
theorem claim1_amended_empty_each :
    getType (JVal.arr []) = ("Array") ∧
    JSONCheckE (JVal.arr [])
      (JVal.arr [JVal.arr [JVal.regexp ("each"), JVal.str ("number")]]) =
      Except.ok false := by
  refine ⟨by decide, ?_⟩
  simp +decide [JSONCheckE_arr, JSONCheckE_scalar, JSONCheckE_str_noPipe,
    checkAlternation, getType, jsStrictEq, strSchemaCheck]

/-- Claim C10: the classifier maps `[]` to `"Array"` and `{}` to
`"Object"`; consequently a keyed-kind (`objectlike`) schema rejects
the empty object outright, whatever its field schemas say.  The
`objLengthExact` guard keeps the schema's `length` binding in the
exactly modeled coercion fragment, where the embedded classifier
agrees with the source's duck-typing, so `"objectlike"` here means
keyed-kind in the source as well. -/
theorem claim10_empty_containers :
    getType (JVal.arr []) = ("Array") ∧
    getType (JVal.obj []) = ("Object") ∧
    ∀ kvs : List (String × JVal), objLengthExact kvs = true →
      getType (JVal.obj kvs) = ("objectlike") →
      JSONCheckE (JVal.obj []) (JVal.obj kvs) = Except.ok false := by
  refine ⟨by decide, by decide, ?_⟩
  intro kvs hex hS
  rw [JSONCheckE_obj, if_pos hS, if_pos (by decide)]

/-- Claim C10 witness. -/
theorem claim10_witness :
    objLengthExact [(("a"), JVal.str ("number"))] = true ∧
    getType (JVal.obj [(("a"), JVal.str ("number"))]) = ("objectlike") ∧
    JSONCheckE (JVal.obj []) (JVal.obj [(("a"), JVal.str ("number"))]) =
      Except.ok false :=
  ⟨by decide, by decide, claim10_empty_containers.2.2 _ (by decide) (by decide)⟩

theorem lookup_append_ne {ikvs : List (String × JVal)} {k k1 : String} {w : JVal}
    (h : k1 ≠ k) : (ikvs ++ [(k, w)]).lookup k1 = ikvs.lookup k1 := by
  induction ikvs with
  | nil =>
      simp only [List.nil_append, List.lookup]
      have : (k1 == k) = false := beq_eq_false_iff_ne.mpr h
      rw [this]
  | cons q qs ih =>
      rcases q with ⟨qk, qv⟩
      simp only [List.cons_append, List.lookup]
      cases k1 == qk
      · exact ih
      · rfl

theorem checkObjPairs_congr (i1 i2 : JVal) (skvs : List (String × JVal))
    (h : ∀ p ∈ skvs, jsGet i1 p.1 = jsGet i2 p.1) :
    checkObjPairs i1 skvs = checkObjPairs i2 skvs := by
  induction skvs with
  | nil => rw [checkObjPairs, checkObjPairs]
  | cons q qs ih =>
      rcases q with ⟨qk, qv⟩
      rw [checkObjPairs, checkObjPairs]
      rw [h (qk, qv) (List.mem_cons_self _ _)]
      rw [ih (fun p hp => h p (List.mem_cons_of_mem _ hp))]

/-- Claim C3, counterexample: adding an unrelated key can change the
verdict — the empty object `{}` is not `objectlike`, so `validate({},
{a:'undefined'})` is `false`, yet after adding the unrelated entry
`b:1` the input becomes `objectlike` and the same schema accepts it. -/
theorem claim3_counterexample :
    JSONCheckE (JVal.obj []) (JVal.obj [(("a"), JVal.str ("undefined"))]) =
      Except.ok false ∧
    JSONCheckE (JVal.obj [(("b"), JVal.num 1)])
      (JVal.obj [(("a"), JVal.str ("undefined"))]) = Except.ok true := by
  constructor <;>
    simp +decide [JSONCheckE_obj, checkObjPairs, JSONCheckE_str_noPipe, getType,
      sniffArrayLike, strSchemaCheck, jsGet, List.lookup]

/-- Claim C3 as amended: an unrelated key/value pair appended to an
input that is keyed-kind, and stays keyed-kind after the addition,
never changes the verdict of an object schema that does not reference
that key.  The `lengthsExact` guards keep every `length` binding in
both inputs and the schema inside the exactly modeled coercion
fragment, where the embedded classifier agrees with the source's
duck-typing on every subvalue; the model-level equation itself does
not depend on them. -/
theorem claim3_amended_extra_keys (ikvs skvs : List (String × JVal))
    (k : String) (w : JVal)
    (hex1 : lengthsExact (JVal.obj ikvs) = true)
    (hex2 : lengthsExact (JVal.obj (ikvs ++ [(k, w)])) = true)
    (hex3 : lengthsExact (JVal.obj skvs) = true)
    (hin1 : getType (JVal.obj ikvs) = ("objectlike"))
    (hin2 : getType (JVal.obj (ikvs ++ [(k, w)])) = ("objectlike"))
    (hfresh : ikvs.lookup k = none)
    (href : ∀ p ∈ skvs, p.1 ≠ k) :
    JSONCheckE (JVal.obj (ikvs ++ [(k, w)])) (JVal.obj skvs) =
      JSONCheckE (JVal.obj ikvs) (JVal.obj skvs) := by
  rw [JSONCheckE_obj, JSONCheckE_obj]
  by_cases hsch : getType (JVal.obj skvs) = ("objectlike")
  · rw [if_pos hsch, if_pos hsch]
    rw [hin1, hin2]
    rw [if_neg (fun hcon => hcon rfl)]
    exact checkObjPairs_congr _ _ skvs (fun p hp => by
      simp only [jsGet]
      rw [lookup_append_ne (href p hp)])
  · rw [if_neg hsch, if_neg hsch]
    by_cases harr : getType (JVal.obj skvs) = ("arraylike")
    · rw [if_pos harr, if_pos harr]
    · rw [if_neg harr, if_neg harr]
      rfl

/-- Claim C3 witness. -/
theorem claim3_witness :
    lengthsExact (JVal.obj [(("a"), JVal.num 1)]) = true ∧
    lengthsExact (JVal.obj ([(("a"), JVal.num 1)] ++ [(("b"), JVal.num 2)])) = true ∧
    lengthsExact (JVal.obj [(("a"), JVal.str ("number"))]) = true ∧
    getType (JVal.obj [(("a"), JVal.num 1)]) = ("objectlike") ∧
    getType (JVal.obj ([(("a"), JVal.num 1)] ++ [(("b"), JVal.num 2)])) = ("objectlike") ∧
    ([(("a"), JVal.num 1)].lookup ("b")).isNone = true ∧
    JSONCheckE (JVal.obj ([(("a"), JVal.num 1)] ++ [(("b"), JVal.num 2)]))
        (JVal.obj [(("a"), JVal.str ("number"))]) =
      JSONCheckE (JVal.obj [(("a"), JVal.num 1)])
        (JVal.obj [(("a"), JVal.str ("number"))]) :=
  ⟨by decide, by decide, by decide, by decide, by decide, rfl,
    claim3_amended_extra_keys [(("a"), JVal.num 1)] [(("a"), JVal.str ("number"))]
      ("b") (JVal.num 2) (by decide) (by decide) (by decide)
      (by decide) (by decide) rfl
      (by intro p hp; simp only [List.mem_singleton] at hp; subst hp; decide)⟩

theorem digitChar_isDigit {d : Nat} (h : d < 10) :
    (Nat.digitChar d).isDigit = true := by
  interval_cases d <;> decide

theorem natDigitsAux_digits :
    ∀ (fuel n : Nat), ∀ c ∈ natDigitsAux fuel n, c.isDigit = true := by
  intro fuel
  induction fuel with
  | zero => intro n c hc; cases hc
  | succ fuel ih =>
      intro n c hc
      rw [natDigitsAux] at hc
      split at hc
      · rename_i hn
        rcases List.mem_singleton.mp hc with rfl
        exact digitChar_isDigit hn
      · rcases List.mem_append.mp hc with h' | h'
        · exact ih _ c h'
        · rcases List.mem_singleton.mp h' with rfl
          exact digitChar_isDigit (Nat.mod_lt n (by omega))

theorem natRepr_ne_length (m : Nat) : natRepr m ≠ ("length") := by
  intro hcon
  have hd : natDigitsAux (m + 1) m = ("length").data := congrArg String.data hcon
  have hl : 'l' ∈ natDigitsAux (m + 1) m := by rw [hd]; decide
  have := natDigitsAux_digits (m + 1) m 'l' hl
  exact absurd this (by decide)

theorem intKey_ne_length_of_nonneg {n : Int} (h : 0 ≤ n) :
    intKey n ≠ ("length") := by
  rcases n with m | m
  · exact natRepr_ne_length m
  · exact absurd h (by simp)

theorem sniff_singleton (k : String) (s : JVal) :
    sniffArrayLike [(k, s)] = false := by
  unfold sniffArrayLike
  split
  · rfl
  · rfl
  · rename_i v hne hl
    split
    · rfl
    · rename_i n hn
      by_cases hpos : (0 : Int) < n
      · have hk : k = ("length") ∧ v = s := by
          simp only [List.lookup] at hl
          by_cases hkk : (("length") : String) == k
          · rw [hkk] at hl
            simp at hl
            have hk1 : (("length") : String) = k := by simpa using hkk
            exact ⟨hk1.symm, hl.symm⟩
          · rw [Bool.not_eq_true] at hkk
            rw [hkk] at hl
            cases hl
        rcases hk with ⟨rfl, rfl⟩
        have hown : hasOwnKey (JVal.obj [(("length"), v)]) (intKey (n - 1)) = false := by
          simp only [hasOwnKey, List.any_cons, List.any_nil, Bool.or_false]
          have hne2 := @intKey_ne_length_of_nonneg (n - 1) (by omega)
          exact beq_eq_false_iff_ne.mpr (fun hcc => hne2 hcc.symm)
        rw [hown]
        simp
      · simp [hpos]

/-- A one-field object schema `{k: s}` is always keyed-kind: the
duck-typing test would need both a `length` key and a decimal last
index key, which a single entry cannot supply. -/
theorem getType_singleton_obj (k : String) (s : JVal) :
    getType (JVal.obj [(k, s)]) = ("objectlike") := by
  simp only [getType]
  rw [sniff_singleton]
  simp

theorem bind_boolEta (E : Except String Bool) :
    (E >>= fun valid => if valid = false then Except.ok false else Except.ok true) = E := by
  rcases E with e | b
  · rfl
  · cases b <;> rfl

/-- Claim C4, counterexample: `validate({}, {a:'undefined'})` is
`false` — `{}` is not keyed-kind — while `validate(undefined,
'undefined')` is `true`, so the missing-key law fails for inputs that
are not keyed-kind. -/
theorem claim4_counterexample :
    JSONCheckE (JVal.obj []) (JVal.obj [(("a"), JVal.str ("undefined"))]) =
      Except.ok false ∧
    JSONCheckE JVal.undef (JVal.str ("undefined")) = Except.ok true := by
  constructor
  · simp +decide [JSONCheckE_obj, checkObjPairs, JSONCheckE_str_noPipe, getType,
      sniffArrayLike, strSchemaCheck, jsGet, List.lookup]
  · rw [JSONCheckE_str_noPipe _ _ (by decide)]
    decide

/-- Claim C4 as amended: for a keyed-kind (`objectlike`) input missing
key `k`, validating against the one-field schema `{k: s}` is exactly
validating `undefined` against `s`.  The `lengthsExact` guards keep
every `length` binding in the input and in `s` inside the exactly
modeled coercion fragment, where the embedded classifier agrees with
the source's duck-typing on every subvalue; the model-level equation
itself does not depend on them. -/
theorem claim4_amended_missing_key (ikvs : List (String × JVal)) (k : String)
    (s : JVal)
    (hexi : lengthsExact (JVal.obj ikvs) = true)
    (hexs : lengthsExact s = true)
    (hin : getType (JVal.obj ikvs) = ("objectlike"))
    (hmiss : ikvs.lookup k = none) :
    JSONCheckE (JVal.obj ikvs) (JVal.obj [(k, s)]) = JSONCheckE JVal.undef s := by
  rw [JSONCheckE_obj, if_pos (getType_singleton_obj k s), hin,
    if_neg (fun hcon => hcon rfl)]
  rw [checkObjPairs]
  have hget : jsGet (JVal.obj ikvs) k = JVal.undef := by
    simp [jsGet, hmiss]
  rw [hget]
  show (JSONCheckE JVal.undef s >>= fun valid =>
      if valid = false then Except.ok false else checkObjPairs (JVal.obj ikvs) []) =
    JSONCheckE JVal.undef s
  rw [checkObjPairs]
  exact bind_boolEta _

/-- Claim C4 witness. -/
theorem claim4_witness :
    lengthsExact (JVal.obj [(("a"), JVal.num 1)]) = true ∧
    lengthsExact (JVal.str ("undefined")) = true ∧
    getType (JVal.obj [(("a"), JVal.num 1)]) = ("objectlike") ∧
    ([(("a"), JVal.num 1)].lookup ("b")).isNone = true ∧
    JSONCheckE (JVal.obj [(("a"), JVal.num 1)])
        (JVal.obj [(("b"), JVal.str ("undefined"))]) =
      JSONCheckE JVal.undef (JVal.str ("undefined")) :=
  ⟨by decide, by decide, by decide, rfl,
    claim4_amended_missing_key [(("a"), JVal.num 1)] ("b") (JVal.str ("undefined"))
      (by decide) (by decide) (by decide) rfl⟩

theorem jsIndex0E_ok {v : JVal} (h1 : v ≠ JVal.null) (h2 : v ≠ JVal.undef) :
    jsIndex0E v = Except.ok (jsIndex v 0) := by
  cases v <;> first | rfl | exact absurd rfl h1 | exact absurd rfl h2

theorem getType_arraylike_shape {v : JVal} (h : getType v = ("arraylike")) :
    (∃ xs, v = JVal.arr xs) ∨ (∃ kvs, v = JVal.obj kvs) := by
  cases v
  case arr xs => exact Or.inl ⟨xs, rfl⟩
  case obj kvs => exact Or.inr ⟨kvs, rfl⟩
  all_goals exact absurd h (by simp only [getType]; decide)

/-- A candidate that is neither an each-clause nor a string is checked
by the positional loop alone. -/
theorem checkCandidate_tuple (x cand : JVal)
    (h1 : cand ≠ JVal.null) (h2 : cand ≠ JVal.undef)
    (heach : isEachRegExp (jsIndex cand 0) = false)
    (hstr : getType cand ≠ ("string")) :
    checkCandidate x cand = (do
      let validArr ← checkTupleIdx x cand (List.range (jsLoopLength cand))
      Except.ok (decide ((validArr.filter (fun b => b == false)).length = 0))) := by
  rw [checkCandidate.eq_def, jsIndex0E_ok h1 h2]
  simp only [exceptOk_bind]
  rw [if_neg (by simp [heach]), if_neg hstr]

theorem tuple_loop_ok_true_iff (x cand : JVal) (idxs : List Nat) :
    ((do
        let validArr ← checkTupleIdx x cand idxs
        Except.ok (decide ((validArr.filter (fun b => b == false)).length = 0))) =
      Except.ok true) ↔
      ∀ i ∈ idxs, JSONCheckE (jsIndex x i) (jsIndex cand i) = Except.ok true := by
  induction idxs with
  | nil =>
      rw [checkTupleIdx]
      simp
  | cons i rest ih =>
      rw [checkTupleIdx]
      rcases hJ : JSONCheckE (jsIndex x i) (jsIndex cand i) with e | b
      · constructor
        · intro hcon; simp [hJ] at hcon
        · intro hall
          have := hall i (List.mem_cons_self _ _)
          rw [hJ] at this
          cases this
      · rcases hR : checkTupleIdx x cand rest with e2 | bs
        · constructor
          · intro hcon; simp [hJ, hR] at hcon
          · intro hall
            have hrest := ih.mpr (fun j hj => hall j (List.mem_cons_of_mem _ hj))
            rw [hR] at hrest
            simp at hrest
        · have hih := ih
          rw [hR] at hih
          simp only [exceptOk_bind, Except.ok.injEq, decide_eq_true_eq] at hih
          cases b
          · constructor
            · intro hcon
              simp [hJ, hR, List.filter_cons] at hcon
            · intro hall
              have := hall i (List.mem_cons_self _ _)
              rw [hJ] at this
              simp at this
          · constructor
            · intro hok
              simp only [hJ, hR, exceptOk_bind, Except.ok.injEq, decide_eq_true_eq,
                List.filter_cons] at hok
              intro j hj
              rcases List.mem_cons.mp hj with rfl | hj2
              · exact hJ
              · exact hih.mp (by simpa using hok) j hj2
            · intro hall
              simp only [hJ, hR, exceptOk_bind, Except.ok.injEq, decide_eq_true_eq,
                List.filter_cons]
              have := hih.mpr (fun j hj => hall j (List.mem_cons_of_mem _ hj))
              simpa using this

theorem checkTupleIdx_congr (x1 x2 cand : JVal) (idxs : List Nat)
    (h : ∀ i ∈ idxs, jsIndex x1 i = jsIndex x2 i) :
    checkTupleIdx x1 cand idxs = checkTupleIdx x2 cand idxs := by
  induction idxs with
  | nil => rw [checkTupleIdx, checkTupleIdx]
  | cons i rest ih =>
      rw [checkTupleIdx, checkTupleIdx]
      rw [h i (List.mem_cons_self _ _)]
      rw [ih (fun j hj => h j (List.mem_cons_of_mem _ hj))]

/-- Claim C7 (tuple law): a sequence-kind, non-each candidate passes
iff every position `0 ≤ i < candidate.length` validates
`input[i]`-or-`undefined` against `candidate[i]`; input elements at
indices at or beyond the candidate's length are never inspected, so
appending extra elements never changes the candidate's verdict. -/
theorem claim7_tuple_law (x cand : JVal)
    (hseq : getType cand = ("arraylike"))
    (heach : isEachRegExp (jsIndex cand 0) = false) :
    ((checkCandidate x cand = Except.ok true) ↔
      ∀ i < jsLoopLength cand,
        JSONCheckE (jsIndex x i) (jsIndex cand i) = Except.ok true) ∧
    (∀ xs ys : List JVal, jsLoopLength cand ≤ xs.length →
      checkCandidate (JVal.arr (xs ++ ys)) cand = checkCandidate (JVal.arr xs) cand) := by
  have hshape := getType_arraylike_shape hseq
  have h1 : cand ≠ JVal.null := by
    rintro rfl
    rcases hshape with ⟨xs, h⟩ | ⟨kvs, h⟩ <;> cases h
  have h2 : cand ≠ JVal.undef := by
    rintro rfl
    rcases hshape with ⟨xs, h⟩ | ⟨kvs, h⟩ <;> cases h
  have hstr : getType cand ≠ ("string") := by rw [hseq]; decide
  constructor
  · rw [checkCandidate_tuple x cand h1 h2 heach hstr]
    exact (tuple_loop_ok_true_iff x cand (List.range (jsLoopLength cand))).trans
      ⟨fun h i hi => h i (List.mem_range.mpr hi),
       fun h i hi => h i (List.mem_range.mp hi)⟩
  · intro xs ys hlen
    rw [checkCandidate_tuple _ cand h1 h2 heach hstr,
        checkCandidate_tuple _ cand h1 h2 heach hstr]
    rw [checkTupleIdx_congr (JVal.arr (xs ++ ys)) (JVal.arr xs) cand _ (fun i hi => by
      have hilt : i < xs.length := lt_of_lt_of_le (List.mem_range.mp hi) hlen
      simp only [jsIndex]
      rw [List.getD_append _ _ _ _ hilt])]

/-- Claim C7 witness. -/
theorem claim7_witness :
    getType (JVal.arr [JVal.str ("number")]) = ("arraylike") ∧
    isEachRegExp (jsIndex (JVal.arr [JVal.str ("number")]) 0) = false ∧
    (((checkCandidate (JVal.arr [JVal.num 1, JVal.num 2])
          (JVal.arr [JVal.str ("number")]) = Except.ok true) ↔
        ∀ i < jsLoopLength (JVal.arr [JVal.str ("number")]),
          JSONCheckE (jsIndex (JVal.arr [JVal.num 1, JVal.num 2]) i)
            (jsIndex (JVal.arr [JVal.str ("number")]) i) = Except.ok true) ∧
      (∀ xs ys : List JVal,
        jsLoopLength (JVal.arr [JVal.str ("number")]) ≤ xs.length →
        checkCandidate (JVal.arr (xs ++ ys)) (JVal.arr [JVal.str ("number")]) =
          checkCandidate (JVal.arr xs) (JVal.arr [JVal.str ("number")]))) :=
  ⟨by decide, by decide,
    claim7_tuple_law (JVal.arr [JVal.num 1, JVal.num 2])
      (JVal.arr [JVal.str ("number")]) (by decide) (by decide)⟩

theorem getType_obj_ne_string (kvs : List (String × JVal)) :
    getType (JVal.obj kvs) ≠ ("string") := by
  simp only [getType]
  split
  · decide
  · split <;> decide

/-- Claim C9, counterexample: a keyed-kind candidate need not pass
vacuously — `{a:'string', length:2}` is keyed-kind (the duck-typing
test fails for lack of a `"1"` key), yet its `length` property drives
the positional loop through two iterations that compare `1` and `2`
against `undefined`, so `validate([1,2], [{a:'string', length:2}])` is
`false`, not `true`. -/
theorem claim9_counterexample :
    getType (JVal.obj [(("a"), JVal.str ("string")), (("length"), JVal.num 2)]) =
      ("objectlike") ∧
    JSONCheckE (JVal.arr [JVal.num 1, JVal.num 2])
      (JVal.arr [JVal.obj [(("a"), JVal.str ("string")), (("length"), JVal.num 2)]]) =
      Except.ok false := by
  refine ⟨by decide, ?_⟩
  rw [JSONCheckE_arr, if_pos (by decide), if_pos (by decide)]
  rw [checkCandidates, checkCandidate.eq_def]
  have hcand : JVal.obj [(("a"), JVal.str ("string")), (("length"), JVal.num 2)] =
      JVal.obj [(("a"), JVal.str ("string")), (("length"), JVal.num 2)] := rfl
  have he : isEachRegExp
      (jsIndex (JVal.obj [(("a"), JVal.str ("string")), (("length"), JVal.num 2)]) 0) =
      false := rfl
  have hrange : List.range (jsLoopLength
      (JVal.obj [(("a"), JVal.str ("string")), (("length"), JVal.num 2)])) = [0, 1] := rfl
  have hi0 : jsIndex (JVal.obj [(("a"), JVal.str ("string")), (("length"), JVal.num 2)]) 0 =
      JVal.undef := rfl
  have hi1 : jsIndex (JVal.obj [(("a"), JVal.str ("string")), (("length"), JVal.num 2)]) 1 =
      JVal.undef := rfl
  have hu1 : JSONCheckE (JVal.num 1) JVal.undef = Except.ok false := by
    rw [JSONCheckE_scalar _ _ (fun kvs h => JVal.noConfusion h)
      (fun l h => JVal.noConfusion h) (fun s h => JVal.noConfusion h)]
    rfl
  have hu2 : JSONCheckE (JVal.num 2) JVal.undef = Except.ok false := by
    rw [JSONCheckE_scalar _ _ (fun kvs h => JVal.noConfusion h)
      (fun l h => JVal.noConfusion h) (fun s h => JVal.noConfusion h)]
    rfl
  have hx0 : jsIndex (JVal.arr [JVal.num 1, JVal.num 2]) 0 = JVal.num 1 := rfl
  have hx1 : jsIndex (JVal.arr [JVal.num 1, JVal.num 2]) 1 = JVal.num 2 := rfl
  simp +decide [jsIndex0E, he, hrange, hi0, hi1, hx0, hx1, hu1, hu2, getType,
    checkTupleIdx, checkCandidates]

/-- Claim C9 as amended: a keyed-kind candidate passes vacuously
provided its `"0"` property is not the `/each/` sentinel and its
`length` binding — kept in the exactly modeled coercion fragment by
the `objLengthExact` guard, so the modeled loop bound matches the
source's — yields a zero loop count; in particular
`validate([1,2], [{a:'string'}]) == true`. -/
theorem claim9_amended (x : JVal) (kvs : List (String × JVal))
    (hseq : getType x = ("arraylike"))
    (heach : isEachRegExp (jsIndex (JVal.obj kvs) 0) = false)
    (hex : objLengthExact kvs = true)
    (hlen : jsLoopLength (JVal.obj kvs) = 0) :
    checkCandidate x (JVal.obj kvs) = Except.ok true ∧
    JSONCheckE (JVal.arr [JVal.num 1, JVal.num 2])
      (JVal.arr [JVal.obj [(("a"), JVal.str ("string"))]]) = Except.ok true := by
  constructor
  · rw [checkCandidate_tuple x (JVal.obj kvs) (by intro h; cases h)
      (by intro h; cases h) heach (getType_obj_ne_string kvs)]
    rw [hlen, List.range_zero, checkTupleIdx]
    simp
  · rw [JSONCheckE_arr, if_pos (by decide), if_pos (by decide)]
    rw [checkCandidates, checkCandidate.eq_def]
    have he : isEachRegExp (jsIndex (JVal.obj [(("a"), JVal.str ("string"))]) 0) =
        false := rfl
    have hrange : List.range (jsLoopLength (JVal.obj [(("a"), JVal.str ("string"))])) =
        [] := rfl
    simp +decide [jsIndex0E, he, hrange, getType, checkTupleIdx, checkCandidates]

/-- Claim C9 witness. -/
theorem claim9_witness :
    getType (JVal.arr [JVal.num 1, JVal.num 2]) = ("arraylike") ∧
    isEachRegExp (jsIndex (JVal.obj [(("a"), JVal.str ("string"))]) 0) = false ∧
    objLengthExact [(("a"), JVal.str ("string"))] = true ∧
    jsLoopLength (JVal.obj [(("a"), JVal.str ("string"))]) = 0 ∧
    checkCandidate (JVal.arr [JVal.num 1, JVal.num 2])
      (JVal.obj [(("a"), JVal.str ("string"))]) = Except.ok true :=
  ⟨by decide, by decide, by decide, by decide,
    (claim9_amended (JVal.arr [JVal.num 1, JVal.num 2])
      [(("a"), JVal.str ("string"))] (by decide) (by decide) (by decide)
      (by decide)).1⟩

/-- `true` unless the value is `null` or `undefined` (property reads
off which throw). -/
def notNullUndef : JVal → Bool
  | JVal.null => false
  | JVal.undef => false
  | _ => true

-- Input-side safety: every object's `length` binding lies in the
-- exactly modeled coercion fragment (so the modeled duck-typing
-- agrees with the source's) and no object anywhere in the tree
-- duck-types as array-like; hence every value the validator
-- classifies `arraylike` and then calls `.map` on is an actual array.
mutual
def jsSafeIn : JVal → Bool
  | JVal.obj kvs => objLengthExact kvs && !(sniffArrayLike kvs) && jsSafeInPairs kvs
  | JVal.arr xs => jsSafeInList xs
  | _ => true
def jsSafeInList : List JVal → Bool
  | [] => true
  | x :: xs => jsSafeIn x && jsSafeInList xs
def jsSafeInPairs : List (String × JVal) → Bool
  | [] => true
  | p :: rest => jsSafeIn p.2 && jsSafeInPairs rest
end

-- Schema-side safety: additionally no object stores the `/each/`
-- sentinel under key `"0"` (whose `slice` would throw) and no array
-- holds `null`/`undefined` entries (whose `[0]` read would throw when
-- the entry is used as a candidate).
mutual
def jsSafeSch : JVal → Bool
  | JVal.obj kvs => objLengthExact kvs && !(sniffArrayLike kvs) &&
      !(isEachRegExp (jsIndex (JVal.obj kvs) 0)) && jsSafeSchPairs kvs
  | JVal.arr xs => jsSafeSchList xs
  | _ => true
def jsSafeSchList : List JVal → Bool
  | [] => true
  | x :: xs => notNullUndef x && jsSafeSch x && jsSafeSchList xs
def jsSafeSchPairs : List (String × JVal) → Bool
  | [] => true
  | p :: rest => jsSafeSch p.2 && jsSafeSchPairs rest
end

theorem jsSafeInList_mem {xs : List JVal} {x : JVal}
    (hl : jsSafeInList xs = true) (hm : x ∈ xs) : jsSafeIn x = true := by
  induction xs with
  | nil => cases hm
  | cons y ys ih =>
      rw [jsSafeInList, Bool.and_eq_true] at hl
      rcases List.mem_cons.mp hm with rfl | hm'
      · exact hl.1
      · exact ih hl.2 hm'

theorem jsSafeInPairs_lookup {kvs : List (String × JVal)} {k : String} {v : JVal}
    (hl : jsSafeInPairs kvs = true) (hm : kvs.lookup k = some v) :
    jsSafeIn v = true := by
  induction kvs with
  | nil => cases hm
  | cons q qs ih =>
      rw [jsSafeInPairs, Bool.and_eq_true] at hl
      rw [List.lookup] at hm
      rcases hbe : (k == q.1) with _ | _
      · rw [hbe] at hm
        exact ih hl.2 hm
      · rw [hbe] at hm
        cases hm
        exact hl.1

theorem jsSafeIn_jsGet {i : JVal} (hi : jsSafeIn i = true) (k : String) :
    jsSafeIn (jsGet i k) = true := by
  cases i <;> simp only [jsGet] <;> try rfl
  case obj kvs =>
      rw [jsSafeIn, Bool.and_eq_true] at hi
      rcases hl : kvs.lookup k with _ | v
      · rfl
      · exact jsSafeInPairs_lookup hi.2 hl

theorem jsSafeInList_getD {xs : List JVal} (hl : jsSafeInList xs = true) (n : Nat) :
    jsSafeIn (xs.getD n JVal.undef) = true := by
  induction xs generalizing n with
  | nil => simp [List.getD_nil]; rfl
  | cons y ys ih =>
      rw [jsSafeInList, Bool.and_eq_true] at hl
      cases n with
      | zero => simpa [List.getD_cons_zero] using hl.1
      | succ m => simpa [List.getD_cons_succ] using ih hl.2 m

theorem jsSafeIn_jsIndex {i : JVal} (hi : jsSafeIn i = true) (n : Nat) :
    jsSafeIn (jsIndex i n) = true := by
  cases i <;> simp only [jsIndex] <;> try rfl
  case str s =>
      rcases s.data.get? n with _ | c <;> rfl
  case arr xs =>
      exact jsSafeInList_getD (by simpa [jsSafeIn] using hi) n
  case obj kvs =>
      rw [jsSafeIn, Bool.and_eq_true] at hi
      rcases hl : kvs.lookup (natRepr n) with _ | v
      · rfl
      · exact jsSafeInPairs_lookup hi.2 hl

theorem jsSafeSchList_mem {xs : List JVal} {x : JVal}
    (hl : jsSafeSchList xs = true) (hm : x ∈ xs) :
    jsSafeSch x = true ∧ x ≠ JVal.null ∧ x ≠ JVal.undef := by
  induction xs with
  | nil => cases hm
  | cons y ys ih =>
      rw [jsSafeSchList, Bool.and_eq_true, Bool.and_eq_true] at hl
      rcases List.mem_cons.mp hm with rfl | hm'
      · refine ⟨hl.1.2, ?_, ?_⟩
        · intro hx; rw [hx] at hl; exact absurd hl.1.1 (by rw [notNullUndef]; decide)
        · intro hx; rw [hx] at hl; exact absurd hl.1.1 (by rw [notNullUndef]; decide)
      · exact ih hl.2 hm'

theorem jsSafeSchPairs_lookup {kvs : List (String × JVal)} {k : String} {v : JVal}
    (hl : jsSafeSchPairs kvs = true) (hm : kvs.lookup k = some v) :
    jsSafeSch v = true := by
  induction kvs with
  | nil => cases hm
  | cons q qs ih =>
      rw [jsSafeSchPairs, Bool.and_eq_true] at hl
      rw [List.lookup] at hm
      rcases hbe : (k == q.1) with _ | _
      · rw [hbe] at hm
        exact ih hl.2 hm
      · rw [hbe] at hm
        cases hm
        exact hl.1

theorem jsSafeSchList_getD {xs : List JVal} (hl : jsSafeSchList xs = true) (n : Nat) :
    jsSafeSch (xs.getD n JVal.undef) = true := by
  induction xs generalizing n with
  | nil => simp [List.getD_nil]; rfl
  | cons y ys ih =>
      rw [jsSafeSchList, Bool.and_eq_true, Bool.and_eq_true] at hl
      cases n with
      | zero => simpa [List.getD_cons_zero] using hl.1.2
      | succ m => simpa [List.getD_cons_succ] using ih hl.2 m

theorem jsSafeSch_jsIndex {c : JVal} (hc : jsSafeSch c = true) (n : Nat) :
    jsSafeSch (jsIndex c n) = true := by
  cases c <;> simp only [jsIndex] <;> try rfl
  case str s =>
      rcases s.data.get? n with _ | ch <;> rfl
  case arr xs =>
      exact jsSafeSchList_getD (by simpa [jsSafeSch] using hc) n
  case obj kvs =>
      rw [jsSafeSch, Bool.and_eq_true, Bool.and_eq_true] at hc
      rcases hl : kvs.lookup (natRepr n) with _ | v
      · rfl
      · exact jsSafeSchPairs_lookup hc.2 hl

theorem getType_obj_arraylike_sniff {kvs : List (String × JVal)}
    (h : getType (JVal.obj kvs) = ("arraylike")) : sniffArrayLike kvs = true := by
  by_contra hcon
  rw [Bool.not_eq_true] at hcon
  rw [getType, hcon] at h
  simp only [Bool.false_eq_true, if_false] at h
  split at h <;> exact absurd h (by decide)

theorem arraylike_safeIn_arr {v : JVal} (h : getType v = ("arraylike"))
    (hs : jsSafeIn v = true) : ∃ xs, v = JVal.arr xs := by
  rcases getType_arraylike_shape h with ⟨xs, rfl⟩ | ⟨kvs, rfl⟩
  · exact ⟨xs, rfl⟩
  · rw [jsSafeIn, Bool.and_eq_true, Bool.and_eq_true] at hs
    rw [getType_obj_arraylike_sniff h] at hs
    exact absurd hs.1.2 (by decide)

theorem arraylike_safeSch_arr {v : JVal} (h : getType v = ("arraylike"))
    (hs : jsSafeSch v = true) : ∃ xs, v = JVal.arr xs := by
  rcases getType_arraylike_shape h with ⟨xs, rfl⟩ | ⟨kvs, rfl⟩
  · exact ⟨xs, rfl⟩
  · rw [jsSafeSch, Bool.and_eq_true, Bool.and_eq_true, Bool.and_eq_true] at hs
    rw [getType_obj_arraylike_sniff h] at hs
    exact absurd hs.1.1.2 (by decide)

theorem eachHead_safeSch_arr {c : JVal}
    (he : isEachRegExp (jsIndex c 0) = true) (hs : jsSafeSch c = true) :
    ∃ items, c = JVal.arr items := by
  cases c
  case arr items => exact ⟨items, rfl⟩
  case str s => exact absurd he (by rw [isEach_jsIndex_str]; decide)
  case obj kvs =>
      rw [jsSafeSch, Bool.and_eq_true, Bool.and_eq_true] at hs
      rw [he] at hs
      exact absurd hs.1.2 (by decide)
  all_goals exact Bool.noConfusion he

theorem getType_string_str {v : JVal} (h : getType v = ("string")) :
    ∃ s, v = JVal.str s := by
  cases v
  case str s => exact ⟨s, rfl⟩
  case arr xs => rw [getType] at h; split at h <;> exact absurd h (by decide)
  case obj kvs =>
      rw [getType] at h
      split at h
      · exact absurd h (by decide)
      · split at h <;> exact absurd h (by decide)
  all_goals exact absurd h (by rw [getType]; decide)

theorem splitValidator_arr_safe {v0 : JVal} {l : List JVal}
    (hs : splitValidator v0 = JVal.arr l) (hsv : jsSafeSch v0 = true) :
    ∀ c ∈ l, jsSafeSch c = true ∧ c ≠ JVal.null ∧ c ≠ JVal.undef := by
  intro c hc
  cases v0 <;> simp only [splitValidator] at hs
  case str s =>
      split at hs
      · cases hs
        rcases List.mem_map.mp hc with ⟨p, hp, rfl⟩
        exact ⟨rfl, fun h => JVal.noConfusion h, fun h => JVal.noConfusion h⟩
      · cases hs
  case arr xs =>
      cases hs
      exact jsSafeSchList_mem (by simpa [jsSafeSch] using hsv) hc
  all_goals cases hs

theorem checkObjPairs_exists_ok (i : JVal) (pairs : List (String × JVal))
    (h : ∀ p ∈ pairs, ∃ b, JSONCheckE (jsGet i p.1) p.2 = Except.ok b) :
    ∃ b, checkObjPairs i pairs = Except.ok b := by
  induction pairs with
  | nil => exact ⟨true, by rw [checkObjPairs]⟩
  | cons q qs ih =>
      rcases q with ⟨k, v⟩
      obtain ⟨b, hb⟩ := h (k, v) (List.mem_cons_self _ _)
      rw [checkObjPairs, hb]
      simp only [exceptOk_bind]
      cases b
      · exact ⟨false, by rw [if_pos rfl]⟩
      · obtain ⟨b2, hb2⟩ := ih (fun p hp => h p (List.mem_cons_of_mem _ hp))
        exact ⟨b2, by rw [if_neg (by decide)]; exact hb2⟩

theorem checkTupleIdx_exists_ok (i c : JVal) (idxs : List Nat)
    (h : ∀ j ∈ idxs, ∃ b, JSONCheckE (jsIndex i j) (jsIndex c j) = Except.ok b) :
    ∃ l, checkTupleIdx i c idxs = Except.ok l := by
  induction idxs with
  | nil => exact ⟨[], by rw [checkTupleIdx]⟩
  | cons j rest ih =>
      obtain ⟨b, hb⟩ := h j (List.mem_cons_self _ _)
      obtain ⟨l, hl⟩ := ih (fun j2 hj => h j2 (List.mem_cons_of_mem _ hj))
      exact ⟨b :: l, by rw [checkTupleIdx, hb, hl]; rfl⟩

theorem checkEachOne_exists_ok (x : JVal) (vals : List JVal)
    (h : ∀ v ∈ vals, ∃ b, JSONCheckE x v = Except.ok b) :
    ∃ l, checkEachOne x vals = Except.ok l := by
  induction vals with
  | nil => exact ⟨[], by rw [checkEachOne]⟩
  | cons v rest ih =>
      obtain ⟨b, hb⟩ := h v (List.mem_cons_self _ _)
      obtain ⟨l, hl⟩ := ih (fun v2 hv => h v2 (List.mem_cons_of_mem _ hv))
      exact ⟨b :: l, by rw [checkEachOne, hb, hl]; rfl⟩

theorem checkEachElems_exists_ok (xs vals : List JVal)
    (h : ∀ x ∈ xs, ∀ v ∈ vals, ∃ b, JSONCheckE x v = Except.ok b) :
    ∃ l, checkEachElems xs vals = Except.ok l := by
  induction xs with
  | nil => exact ⟨[], by rw [checkEachElems]⟩
  | cons x rest ih =>
      obtain ⟨l1, hl1⟩ := checkEachOne_exists_ok x vals
        (fun v hv => h x (List.mem_cons_self _ _) v hv)
      obtain ⟨l2, hl2⟩ := ih (fun x2 hx v hv => h x2 (List.mem_cons_of_mem _ hx) v hv)
      refine ⟨decide (0 < (List.filter (fun b2 => b2 == true) l1).length) :: l2, ?_⟩
      rw [checkEachElems, hl1]
      simp only [exceptOk_bind]
      rw [hl2]
      rfl

theorem checkCandidates_exists_ok (i : JVal) (cands : List JVal)
    (h : ∀ c ∈ cands, ∃ b, checkCandidate i c = Except.ok b) :
    ∃ l, checkCandidates i cands = Except.ok l := by
  induction cands with
  | nil => exact ⟨[], by rw [checkCandidates]⟩
  | cons c rest ih =>
      obtain ⟨b, hb⟩ := h c (List.mem_cons_self _ _)
      obtain ⟨l, hl⟩ := ih (fun c2 hc => h c2 (List.mem_cons_of_mem _ hc))
      exact ⟨b :: l, by rw [checkCandidates, hb, hl]; rfl⟩

theorem checkAlternation_exists_ok (i : JVal) (cands : List JVal)
    (h : ∀ c ∈ cands, ∃ b, JSONCheckE i c = Except.ok b) :
    ∃ l, checkAlternation i cands = Except.ok l := by
  induction cands with
  | nil => exact ⟨[], by rw [checkAlternation]⟩
  | cons c rest ih =>
      obtain ⟨b, hb⟩ := h c (List.mem_cons_self _ _)
      obtain ⟨l, hl⟩ := ih (fun c2 hc => h c2 (List.mem_cons_of_mem _ hc))
      exact ⟨b :: l, by rw [checkAlternation, hb, hl]; rfl⟩

theorem jsSafeSchPairs_mem {kvs : List (String × JVal)} {p : String × JVal}
    (hl : jsSafeSchPairs kvs = true) (hm : p ∈ kvs) : jsSafeSch p.2 = true := by
  induction kvs with
  | nil => cases hm
  | cons q qs ih =>
      rw [jsSafeSchPairs, Bool.and_eq_true] at hl
      rcases List.mem_cons.mp hm with rfl | hm'
      · exact hl.1
      · exact ih hl.2 hm'

theorem checkCandidate_exists_ok (i c : JVal)
    (hi : getType i = ("arraylike")) (hsi : jsSafeIn i = true)
    (hsc : jsSafeSch c = true) (h1 : c ≠ JVal.null) (h2 : c ≠ JVal.undef)
    (IH : ∀ v2 i2 : JVal, vsize v2 ≤ vsize c → jsSafeIn i2 = true →
      jsSafeSch v2 = true → ∃ b, JSONCheckE i2 v2 = Except.ok b) :
    ∃ b, checkCandidate i c = Except.ok b := by
  by_cases heach : isEachRegExp (jsIndex c 0) = true
  · obtain ⟨items, rfl⟩ := eachHead_safeSch_arr heach hsc
    obtain ⟨xs, rfl⟩ := arraylike_safeIn_arr hi hsi
    have hstep : checkCandidate (JVal.arr xs) (JVal.arr items) =
        (do
          let mapRes ← checkEachElems xs (items.drop 1)
          Except.ok (decide ((mapRes.filter (fun b => b == false)).length = 0))) := by
      rw [checkCandidate.eq_def]
      rw [show jsIndex0E (JVal.arr items) = Except.ok (jsIndex (JVal.arr items) 0) from rfl]
      simp only [exceptOk_bind]
      rw [if_pos heach]
    rw [hstep]
    obtain ⟨l, hl⟩ := checkEachElems_exists_ok xs (items.drop 1) (fun x hx v hv => by
      have hvm : v ∈ items := List.mem_of_mem_drop hv
      have hle : vsize v ≤ vsize (JVal.arr items) := by
        have := vsizeList_mem_le hvm
        simp only [vsize]
        omega
      exact IH v x hle
        (jsSafeInList_mem (by simpa [jsSafeIn] using hsi) hx)
        (jsSafeSchList_mem (by simpa [jsSafeSch] using hsc) hvm).1)
    rw [hl]
    exact ⟨_, rfl⟩
  · by_cases hstr : getType c = ("string")
    · obtain ⟨s, rfl⟩ := getType_string_str hstr
      have hcc : checkCandidate i (JVal.str s) = JSONCheckE i (JVal.str s) := by
        rw [checkCandidate.eq_def]
        rw [show jsIndex0E (JVal.str s) = Except.ok (jsIndex (JVal.str s) 0) from rfl]
        simp only [exceptOk_bind]
        rw [if_neg heach, if_pos hstr]
      rw [hcc]
      exact IH _ i (le_refl _) hsi hsc
    · have heach2 : isEachRegExp (jsIndex c 0) = false := by simpa using heach
      rw [checkCandidate_tuple i c h1 h2 heach2 hstr]
      obtain ⟨l, hl⟩ := checkTupleIdx_exists_ok i c
        (List.range (jsLoopLength c)) (fun j hj =>
          IH (jsIndex c j) (jsIndex i j) (vsize_jsIndex_le c j)
            (jsSafeIn_jsIndex hsi j) (jsSafeSch_jsIndex hsc j))
      rw [hl]
      exact ⟨_, rfl⟩

theorem JSONCheckE_safe_aux :
    ∀ n : Nat, ∀ v0 i : JVal, vsize v0 = n → jsSafeIn i = true →
      jsSafeSch v0 = true → ∃ b, JSONCheckE i v0 = Except.ok b := by
  intro n
  induction n using Nat.strong_induction_on with
  | _ n IH =>
      intro v0 i hn hsi hsv
      rw [JSONCheckE.eq_def]
      split
      case _ kvs heq =>
        have hv0 := splitValidator_obj_eq heq
        subst hv0
        rw [jsSafeSch, Bool.and_eq_true, Bool.and_eq_true, Bool.and_eq_true] at hsv
        by_cases hobj : getType (JVal.obj kvs) = ("objectlike")
        · rw [if_pos hobj]
          by_cases hio : getType i = ("objectlike")
          · rw [if_neg (by simp [hio])]
            apply checkObjPairs_exists_ok
            intro p hp
            have hlt : vsize p.2 < n := by
              have := vsizePairs_mem_le hp
              simp only [vsize] at hn
              omega
            exact IH (vsize p.2) hlt p.2 _ rfl (jsSafeIn_jsGet hsi p.1)
              (jsSafeSchPairs_mem hsv.2 hp)
          · rw [if_pos hio]
            exact ⟨false, rfl⟩
        · have harr : getType (JVal.obj kvs) ≠ ("arraylike") := fun hcon => by
            have hsn := getType_obj_arraylike_sniff hcon
            rw [hsn] at hsv
            exact absurd hsv.1.1.2 (by decide)
          rw [if_neg hobj, if_neg harr]
          exact ⟨_, rfl⟩
      case _ vitems heq =>
        by_cases hga : getType (JVal.arr vitems) = ("arraylike")
        · rw [if_pos hga]
          have hsafecands := splitValidator_arr_safe heq hsv
          have hsize : ∀ c ∈ vitems, vsize c < n := fun c hc => by
            have hm := vsizeList_mem_le hc
            have h2 := splitValidator_arr_vsize heq
            omega
          by_cases hia : getType i = ("arraylike")
          · rw [if_pos hia]
            obtain ⟨l, hl⟩ := checkCandidates_exists_ok i vitems (fun c hc => by
              obtain ⟨hsc, hc1, hc2⟩ := hsafecands c hc
              exact checkCandidate_exists_ok i c hia hsi hsc hc1 hc2
                (fun v2 i2 hle hsi2 hsv2 =>
                  IH (vsize v2) (by have := hsize c hc; omega) v2 i2 rfl hsi2 hsv2))
            rw [hl]
            exact ⟨_, rfl⟩
          · rw [if_neg hia]
            obtain ⟨l, hl⟩ := checkAlternation_exists_ok i vitems (fun c hc => by
              obtain ⟨hsc, hcn, hcu⟩ := hsafecands c hc
              exact IH (vsize c) (hsize c hc) c i rfl hsi hsc)
            rw [hl]
            exact ⟨_, rfl⟩
        · rw [if_neg hga]
          exact ⟨_, rfl⟩
      case _ s heq => exact ⟨_, rfl⟩
      case _ => exact ⟨_, rfl⟩

/-- Claim C8, counterexample: validation can throw on JSON-like data.
`validate([1], [null])` — both the input `[1]` and the schema `[null]`
are plain JSON values — reads `validatorItemArr[0]` off the `null`
candidate and raises a `TypeError` instead of returning a boolean. -/
theorem claim8_counterexample :
    JSONCheckE (JVal.arr [JVal.num 1]) (JVal.arr [JVal.null]) =
      Except.error ("TypeError: cannot read properties of null") := by
  rw [JSONCheckE_arr, if_pos (by decide), if_pos (by decide)]
  rw [checkCandidates]
  rw [show checkCandidate (JVal.arr [JVal.num 1]) JVal.null =
    Except.error ("TypeError: cannot read properties of null") from by
      rw [checkCandidate.eq_def]; rfl]
  rfl

/-- Claim C8 as amended: validation terminates with a boolean — every
failure being the value `false` inside `Except.ok` — whenever, in the
input and the schema, every object binds `length` (if at all) to a
value in the exactly modeled coercion fragment, no object duck-types
as array-like, no schema object stores the `/each/` sentinel under key
`"0"`, and no array in the schema holds `null`/`undefined` entries.
(Outside these conditions the source can throw: `.map` on a
duck-typed array-like — including one duck-typed only through a
coerced `length`, such as `{'0':5, length:[1]}` — `.slice` on an
each-headed object, or a property read off a `null`/`undefined`
candidate.) -/
theorem claim8_amended_no_throw (i v : JVal)
    (hsi : jsSafeIn i = true) (hsv : jsSafeSch v = true) :
    ∃ b : Bool, JSONCheckE i v = Except.ok b :=
  JSONCheckE_safe_aux (vsize v) v i rfl hsi hsv

/-- Claim C8 witness. -/
theorem claim8_witness :
    jsSafeIn (JVal.obj [(("a"), JVal.num 1)]) = true ∧
    jsSafeSch (JVal.obj [(("a"), JVal.str ("number"))]) = true ∧
    ∃ b : Bool, JSONCheckE (JVal.obj [(("a"), JVal.num 1)])
      (JVal.obj [(("a"), JVal.str ("number"))]) = Except.ok b :=
  ⟨by decide, by decide,
    claim8_amended_no_throw (JVal.obj [(("a"), JVal.num 1)])
      (JVal.obj [(("a"), JVal.str ("number"))]) (by decide) (by decide)⟩
